import Mathlib

/-!
Verification development for the Files2Prompt editor extension.

We give a shallow embedding of the two core components:

* the Envelope Codec (`generateXmlOutput` in `src/extension.ts`, and the
  decode half of `processXmlContent`), modelled over `List Char`;
* the Selection Tree (`FileTreeProvider` in the file tree provider module):
  check-state map, `updateCheckState`, `updateParentState`,
  `updateDirectoryCheckState`, `getFilesAndDirectories`, `getCheckedFiles`,
  `setCheckedFiles`, `clearChecks`;
* the apply step of `processXmlContent` (path resolution, directory-creating
  writes, new/modified classification) and the selection history commands
  (`files2prompt.goBack` / `files2prompt.goForward`).

Text is modelled as `List Char` (named `Str`), filesystem paths as lists of
path segments (`Path`), and the persisted check-state map / storage as
insertion-ordered association lists, matching a JavaScript `Map`.
-/

namespace Files2Prompt

/-- A character string, modelled as the list of its characters. -/
abbrev Str := List Char

/-- A filesystem path, as the list of its segments relative to a root. -/
abbrev Path := List Str

/-- Shorthand turning a Lean string literal into its character list. -/
def lit (s : String) : Str := s.data

/-! ## Association-list maps

The extension keeps its per-path state in JavaScript `Map`s; we model those
as insertion-ordered association lists with first-match lookup and
replace-or-append insertion (the semantics of `Map.get` / `Map.set`). -/

/-- `Map.get`: first binding of the key, if any. -/
def alookup {β : Type} : List (Path × β) → Path → Option β
  | [], _ => none
  | (q, v) :: rest, p => if q = p then some v else alookup rest p

/-- `Map.set`: replace the first binding of the key, or append a new one. -/
def aset {β : Type} : List (Path × β) → Path → β → List (Path × β)
  | [], p, v => [(p, v)]
  | (q, w) :: rest, p, v =>
    if q = p then (q, v) :: rest else (q, w) :: aset rest p v

/-! ## Envelope Codec: encode (`generateXmlOutput`, src/extension.ts 168-188) -/

/-- A (relative path, content) pair, the unit exchanged by the codec. -/
structure FileRecord where
  name : Str
  content : Str
deriving DecidableEq

/-- One `<file>` entry as emitted by `generateXmlOutput`:
`<file name="NAME">\n<![CDATA[\nCONTENT\n]]>\n</file>\n`.
The interpolation performs no escaping of either field. -/
def fileEntryText (r : FileRecord) : Str :=
  lit "<file name=\"" ++ r.name ++ lit "\">\n<![CDATA[\n" ++ r.content ++
    lit "\n]]>\n</file>\n"

/-- `generateXmlOutput`: wrap the concatenated entries in `<files>...</files>`.
The per-file read of the file content is abstracted: each record carries the
content that `fs.readFileSync` would have returned, and `name` is the path
already made relative to the workspace root. -/
def generateXmlOutput (records : List FileRecord) : Str :=
  lit "<files>\n" ++ (records.map fileEntryText).flatten ++ lit "</files>"

/-! ## Envelope Codec: decode (`processXmlContent`, src/extension.ts 200-237)

The decode step calls the external `fast-xml-parser` library
(`XMLParser` with `cdataPropName: "__cdata"`, `trimValues: false`) and then
extracts, for each `<file>` element, its `name` attribute and its CDATA
text. Modelled from the spec: the library itself is not part of this
repository, and per the design notes it is "replaceable by any conformant
markup parser; the contract is purely structural
(container/entry/attribute/verbatim-region)".  We model it as a structural
parser of exactly the envelope grammar the encoder produces: a `<files>`
container of `<file name="...">` entries whose verbatim (CDATA) region runs
to the first occurrence of the closing marker `]]>`.  The extracted content
of an entry is the raw CDATA text (`trimValues: false` — surrounding
newlines included), as in `fileObj["__cdata"]`. -/

/-- Strip an expected literal from the front of the input, or fail. -/
def dropPre : Str → Str → Option Str
  | [], s => some s
  | _ :: _, [] => none
  | c :: p, d :: s => if c = d then dropPre p s else none

/-- Split the input at the first occurrence of the marker `m`, returning the
text before the marker and the text after it (marker removed). -/
def splitAtSubstr (m : Str) : Str → Option (Str × Str)
  | [] => none
  | c :: rest =>
    match dropPre m (c :: rest) with
    | some after => some ([], after)
    | none => (splitAtSubstr m rest).map (fun pq => (c :: pq.1, pq.2))

/-- Parse one `<file name="...">` entry at the front of the input, returning
the extracted record (name attribute, raw CDATA text) and the rest. -/
def parseEntry (s : Str) : Option (FileRecord × Str) :=
  (dropPre (lit "<file name=\"") s).bind fun s1 =>
  (splitAtSubstr (lit "\"") s1).bind fun ns =>
  (dropPre (lit ">\n<![CDATA[") ns.2).bind fun s3 =>
  (splitAtSubstr (lit "]]>") s3).bind fun cs =>
  (dropPre (lit "\n</file>\n") cs.2).map fun s5 =>
  ({ name := ns.1, content := cs.1 }, s5)

/-- Parse a sequence of entries; the fuel bounds the number of entries and is
always instantiated with more than the input length. -/
def parseEntries : Nat → Str → Option (List FileRecord × Str)
  | 0, _ => none
  | fuel + 1, s =>
    match parseEntry s with
    | none => some ([], s)
    | some rrest =>
      (parseEntries fuel rrest.2).map fun rsrest => (rrest.1 :: rsrest.1, rsrest.2)

/-- Decode failures surfaced by `processXmlContent`: a parse failure
("Error parsing XML content from clipboard.") or a parsed structure without
file entries ("No file content found."). -/
inductive DecodeError where
  | parseError
  | noFileEntries
deriving DecidableEq

/-- The decode stage of `processXmlContent`: parse the pasted text as the
envelope markup and extract the ordered record list.  An input that is not
a well-formed envelope is a parse error; a well-formed envelope with no
`<file>` entries reports `noFileEntries` (the `!jsonObj.files.file` check). -/
def decodeRecords (s : Str) : Except DecodeError (List FileRecord) :=
  match dropPre (lit "<files>\n") s with
  | none => .error .parseError
  | some body =>
    match parseEntries (body.length + 1) body with
    | none => .error .parseError
    | some rsrest =>
      if rsrest.2 = lit "</files>" then
        if rsrest.1 = [] then .error .noFileEntries else .ok rsrest.1
      else .error .parseError

/-- A record's content as recovered by decoding its own encoding: the CDATA
region adds one newline on each side of the original content. -/
def padRecord (r : FileRecord) : FileRecord :=
  { name := r.name, content := '\n' :: (r.content ++ ['\n']) }

/-! ## Apply step of `processXmlContent` (src/extension.ts 229-264)

Storage is modelled as a map from absolute paths (segment lists) to file
contents; `fs.promises.mkdir(..., { recursive: true })` needs no separate
model since directories are implicit in the path keys. -/

/-- File storage: absolute path (as segments) to content. -/
abbrev Storage := List (Path × Str)

/-- Split a relative path string at `/` separators into raw segments. -/
def splitPath : Str → List Str
  | [] => [[]]
  | c :: rest =>
    match splitPath rest with
    | [] => [[]]
    | seg :: segs => if c = '/' then [] :: seg :: segs else (c :: seg) :: segs

/-- Node's `path.join` normalisation: `..` pops a segment, `.` and empty
segments disappear. -/
def normSegs (acc : List Str) : List Str → List Str
  | [] => acc
  | seg :: rest =>
    if seg = lit ".." then normSegs acc.dropLast rest
    else if seg = lit "." ∨ seg = [] then normSegs acc rest
    else normSegs (acc ++ [seg]) rest

/-- `path.join(workspaceRoot, fileName)`: append the name's segments to the
root and normalise.  No validation confines the result to the root. -/
def resolveName (root : Path) (name : Str) : Path :=
  normSegs root (splitPath name)

/-- Outcome of applying one decoded record set: resulting storage plus the
names classified "modified" and "new". -/
structure ApplyResult where
  storage : Storage
  changed : List Str
  newFiles : List Str
deriving DecidableEq

/-- The body of the per-record loop: records with a falsy (empty) name are
skipped; otherwise the content is written at the resolved path, but only
when the file is missing (classified new) or its content differs
(classified modified). -/
def applyOne (root : Path) (st : ApplyResult) (r : FileRecord) : ApplyResult :=
  if r.name = [] then st
  else
    let p := resolveName root r.name
    match alookup st.storage p with
    | some existing =>
      if existing = r.content then st
      else { storage := aset st.storage p r.content,
             changed := st.changed ++ [r.name], newFiles := st.newFiles }
    | none =>
      { storage := aset st.storage p r.content,
        changed := st.changed, newFiles := st.newFiles ++ [r.name] }

/-- Apply a decoded record list to storage, in document order. -/
def applyFiles (root : Path) (rs : List FileRecord) (σ : Storage) : ApplyResult :=
  rs.foldl (applyOne root) { storage := σ, changed := [], newFiles := [] }

/-- Storage-only projection of `applyOne` (same writes, no classification). -/
def applyOneStorage (root : Path) (σ : Storage) (r : FileRecord) : Storage :=
  if r.name = [] then σ
  else
    let p := resolveName root r.name
    match alookup σ p with
    | some existing => if existing = r.content then σ else aset σ p r.content
    | none => aset σ p r.content

/-- The full paste pipeline: decode the clipboard text; on any decode error
report it and leave storage untouched (the early `return`s), otherwise
apply the records. -/
def processXmlContent (root : Path) (xmlContent : Str) (σ : Storage) :
    Storage × Option DecodeError :=
  match decodeRecords xmlContent with
  | .error e => (σ, some e)
  | .ok rs => ((applyFiles root rs σ).storage, none)

/-! ## Selection Tree (`FileTreeProvider`)

The workspace is a fixed, finite set of filesystem entries, each identified
by its path relative to the workspace root (the root itself is `[]` and is
not listed).  `readdir(dirPath)` is modelled by `childrenOf`.  Symbolic
links are not modelled (entries are plain files or directories; the
broken-symlink skip in the source is then vacuous), and the
directories-before-files sort of a listing is omitted — every property
verified here is order-independent.

The two ignore tests of the source, `this.isGitIgnored(relativePath)` and
`this.ignoredExtensions.has(extname(entry.name))`, are abstracted as a
predicate on relative paths (`gitIgn`) and a predicate on entry names
(`extIgn`). -/

/-- A filesystem entry: its path relative to the workspace root (nonempty)
and whether it is a directory. -/
structure FsEnt where
  path : Path
  isDir : Bool
deriving DecidableEq

/-- The check-state map `checkedItems`: path to checkbox state
(`true` = `Checked`, `false` = `Unchecked`). -/
abbrev CheckMap := List (Path × Bool)

/-- An entry's display name: its last path segment. -/
def entName (e : FsEnt) : Str := e.path.getLastD []

/-- `readdir(dirPath)`: the entries directly inside a directory. -/
def childrenOf (fs : List FsEnt) (p : Path) : List FsEnt :=
  fs.filter (fun e => decide (e.path.dropLast = p ∧ e.path ≠ []))

/-- Whether an entry is ignored: gitignored or of an ignored extension. -/
def isIgnoredEnt (gitIgn : Path → Bool) (extIgn : Str → Bool) (e : FsEnt) : Bool :=
  gitIgn e.path || extIgn (entName e)

/-- The non-ignored entries of a directory. -/
def nonIgnChildren (gitIgn : Path → Bool) (extIgn : Str → Bool)
    (fs : List FsEnt) (p : Path) : List FsEnt :=
  (childrenOf fs p).filter (fun e => !isIgnoredEnt gitIgn extIgn e)

/-- A path's queried check state: its map entry, defaulting to `Unchecked`
(`this.checkedItems.get(key) ?? Unchecked`, as in `getTreeItem`). -/
def checkStateOf (m : CheckMap) (p : Path) : Bool := (alookup m p).getD false

/-- The state `updateParentState` computes for a directory: `Checked` iff it
has at least one non-ignored child and every non-ignored child's map state
is `Checked` (the loop over `dirEntries` with `hasNonIgnoredChild` and
`allChecked`; the early `break` does not change the computed pair). -/
def parentStateValue (gitIgn : Path → Bool) (extIgn : Str → Bool)
    (fs : List FsEnt) (m : CheckMap) (p : Path) : Bool :=
  !(nonIgnChildren gitIgn extIgn fs p).isEmpty &&
    (nonIgnChildren gitIgn extIgn fs p).all (fun e => checkStateOf m e.path)

/-- `updateParentState`: recompute a directory's own map entry from its
children's current map states. -/
def updateParentState (gitIgn : Path → Bool) (extIgn : Str → Bool)
    (fs : List FsEnt) (p : Path) (m : CheckMap) : CheckMap :=
  aset m p (parentStateValue gitIgn extIgn fs m p)

/-- Maximum path length occurring in the workspace; bounds recursion depth. -/
def fsDepth (fs : List FsEnt) : Nat :=
  fs.foldl (fun n e => max n e.path.length) 0

/-- `updateDirectoryCheckState`: propagate a state to the children of a
directory and recursively into child directories.  When the parent is not
gitignored, gitignored children and ignored-extension children are skipped
entirely; when it is, the state cascades unconditionally.  The `fuel`
argument only bounds the recursion depth and always exceeds the workspace
depth at the call site. -/
def updateDirectoryCheckState (gitIgn : Path → Bool) (extIgn : Str → Bool)
    (fs : List FsEnt) : Nat → Path → Bool → Bool → CheckMap → CheckMap
  | 0, _, _, _, m => m
  | fuel + 1, dirPath, state, parentGitIgn, m =>
    (childrenOf fs dirPath).foldl
      (fun m e =>
        if !parentGitIgn && (gitIgn e.path || extIgn (entName e)) then m
        else
          let m := aset m e.path state
          if e.isDir then
            updateDirectoryCheckState gitIgn extIgn fs fuel e.path state
              (gitIgn e.path) m
          else m)
      m

/-- The proper ancestors visited by the `while (dirPath.startsWith(root))`
walk: every proper prefix of the path, from the immediate parent down to
the workspace root `[]`. -/
def ancestorChain (p : Path) : List Path :=
  (List.range p.length).reverse.map (fun k => p.take k)

/-- `updateCheckState`: set the toggled item's state, cascade into it when
it is a directory, then recompute every ancestor directory bottom-up. -/
def updateCheckState (gitIgn : Path → Bool) (extIgn : Str → Bool)
    (fs : List FsEnt) (itemPath : Path) (isDir : Bool) (state : Bool)
    (m : CheckMap) : CheckMap :=
  let m1 := aset m itemPath state
  let m2 :=
    if isDir then
      updateDirectoryCheckState gitIgn extIgn fs (fsDepth fs + 1) itemPath
        state (gitIgn itemPath) m1
    else m1
  (ancestorChain itemPath).foldl
    (fun m a => updateParentState gitIgn extIgn fs a m) m2

/-- `clearChecks`: empty the map. -/
def clearChecks (_ : CheckMap) : CheckMap := ([] : CheckMap)

/-- The directory-state invariant of the specification: a directory's
queried state is `Checked` iff it has at least one non-ignored child and
every non-ignored child's queried state is `Checked`. -/
def dirInvariant (gitIgn : Path → Bool) (extIgn : Str → Bool)
    (fs : List FsEnt) (m : CheckMap) (p : Path) : Prop :=
  checkStateOf m p = true ↔
    (nonIgnChildren gitIgn extIgn fs p ≠ [] ∧
     ∀ e ∈ nonIgnChildren gitIgn extIgn fs p, checkStateOf m e.path = true)

instance (gitIgn : Path → Bool) (extIgn : Str → Bool) (fs : List FsEnt)
    (m : CheckMap) (p : Path) : Decidable (dirInvariant gitIgn extIgn fs m p) := by
  unfold dirInvariant
  infer_instance

/-! ## Directory listing (`getFilesAndDirectories`, tree provider 77-155) -/

/-- One row of a directory listing. -/
structure ListedItem where
  name : Str
  path : Path
  isDir : Bool
  ignored : Bool
  checkbox : Bool
deriving DecidableEq

/-- The checkbox state reported for one entry, plus whether the lookup falls
through to the inherit-from-parent branch that also writes the map: an
entry absent from the map inherits `Checked` exactly when the listed
directory's own map entry is `Checked` and the entry is not ignored. -/
def listedState (gitIgn : Path → Bool) (extIgn : Str → Bool) (dirPath : Path)
    (m : CheckMap) (e : FsEnt) : Bool × Bool :=
  match alookup m e.path with
  | some st => (st, false)
  | none =>
    if alookup m dirPath = some true ∧ isIgnoredEnt gitIgn extIgn e = false then
      (true, true)
    else (false, false)

/-- The listing row produced for one entry from a given map. -/
def itemOf (gitIgn : Path → Bool) (extIgn : Str → Bool) (dirPath : Path)
    (m : CheckMap) (e : FsEnt) : ListedItem :=
  { name := entName e, path := e.path, isDir := e.isDir,
    ignored := isIgnoredEnt gitIgn extIgn e,
    checkbox := (listedState gitIgn extIgn dirPath m e).1 }

/-- One iteration of the listing loop: emit the entry's row and, when the
inherit branch fired, store the inherited `Checked` into the map
(`this.checkedItems.set(fullPath, checkboxState)`). -/
def listStep (gitIgn : Path → Bool) (extIgn : Str → Bool) (dirPath : Path)
    (acc : List ListedItem × CheckMap) (e : FsEnt) :
    List ListedItem × CheckMap :=
  (acc.1 ++ [itemOf gitIgn extIgn dirPath acc.2 e],
   if (listedState gitIgn extIgn dirPath acc.2 e).2 then aset acc.2 e.path true
   else acc.2)

/-- `getFilesAndDirectories`: list a directory's entries with their checkbox
states.  The loop threads the check-state map because the inherit branch
writes to it; the possibly-extended map is returned alongside the rows. -/
def getFilesAndDirectories (gitIgn : Path → Bool) (extIgn : Str → Bool)
    (fs : List FsEnt) (dirPath : Path) (m : CheckMap) :
    List ListedItem × CheckMap :=
  (childrenOf fs dirPath).foldl (listStep gitIgn extIgn dirPath) ([], m)

/-- The nearest ancestor of a path that has a stored state, per the
specification's words ("inherited from the nearest ancestor's Checked
state"); used to state what the listing does not implement. -/
def nearestStoredAncestor (m : CheckMap) (p : Path) : Option Bool :=
  (ancestorChain p).findSome? (fun a => alookup m a)

/-! ## `getCheckedFiles` (tree provider 267-276)

The filter consults `fs.existsSync` (which follows symlinks, so a dangling
link does not exist) and `fs.lstatSync(..).isFile() || isSymbolicLink()`.
To express that test, storage is viewed here as a map from paths to the
kind of node found there. -/

/-- What `lstat` finds at a path: a plain file, a directory, or a symbolic
link whose target is a file, a directory, or missing. -/
inductive NodeKind where
  | file
  | dir
  | symFile
  | symDir
  | symBroken
deriving DecidableEq

/-- `fs.existsSync`: follows symlinks, so a broken link does not exist. -/
def existsSync (st : List (Path × NodeKind)) (p : Path) : Bool :=
  match alookup st p with
  | some NodeKind.symBroken => false
  | some _ => true
  | none => false

/-- `fs.lstatSync(p).isFile()`. -/
def lstatIsFile (st : List (Path × NodeKind)) (p : Path) : Bool :=
  alookup st p = some NodeKind.file

/-- `fs.lstatSync(p).isSymbolicLink()`. -/
def lstatIsSymlink (st : List (Path × NodeKind)) (p : Path) : Bool :=
  match alookup st p with
  | some NodeKind.symFile => true
  | some NodeKind.symDir => true
  | some NodeKind.symBroken => true
  | _ => false

/-- `getCheckedFiles`: the map entries whose state is `Checked`, whose path
exists, and whose path lstats as a file or a symbolic link, in map order. -/
def getCheckedFiles (st : List (Path × NodeKind)) (m : CheckMap) : List Path :=
  ((m.filter (fun ent =>
      ent.2 && existsSync st ent.1 &&
        (lstatIsFile st ent.1 || lstatIsSymlink st ent.1))).map (fun ent => ent.1))

/-- Whether a path denotes a plain file once symlinks are resolved; the
specification's "denotes a plain file". -/
def resolvesToFile (st : List (Path × NodeKind)) (p : Path) : Bool :=
  alookup st p = some NodeKind.file || alookup st p = some NodeKind.symFile

/-! ## Selection history (`files2prompt.goBack` / `goForward`,
src/extension.ts 72-93) -/

/-- Whether a path exists in the workspace (as `fs.existsSync` against the
modelled tree). -/
def existsIn (fs : List FsEnt) (p : Path) : Bool :=
  fs.any (fun e => decide (e.path = p))

/-- `setCheckedFiles`: clear the map, mark each given existing path
`Checked`, then recompute every ancestor directory of each path. -/
def setCheckedFiles (gitIgn : Path → Bool) (extIgn : Str → Bool)
    (fs : List FsEnt) (paths : List Path) : CheckMap :=
  let m := paths.foldl
    (fun m p => if existsIn fs p then aset m p true else m) ([] : CheckMap)
  paths.foldl
    (fun m p =>
      (ancestorChain p).foldl
        (fun m' a => updateParentState gitIgn extIgn fs a m') m)
    m

/-- The copy-history state: snapshots of checked-file lists and a cursor.
The initial state is `⟨[], -1⟩`. -/
structure HistoryState where
  history : List (List Path)
  pos : Int
deriving DecidableEq

/-- `files2prompt.goBack`: step the cursor back and restore that snapshot,
or — at the boundary (`historyPosition > 0` fails) — warn and change
nothing.  The third component records whether the boundary warning fired. -/
def goBack (gitIgn : Path → Bool) (extIgn : Str → Bool) (fs : List FsEnt)
    (h : HistoryState) (m : CheckMap) : HistoryState × CheckMap × Bool :=
  if 0 < h.pos then
    ({ history := h.history, pos := h.pos - 1 },
     setCheckedFiles gitIgn extIgn fs (h.history.getD (h.pos - 1).toNat []),
     false)
  else (h, m, true)

/-- `files2prompt.goForward`: the symmetric forward step, a warning no-op
when `historyPosition < history.length - 1` fails. -/
def goForward (gitIgn : Path → Bool) (extIgn : Str → Bool) (fs : List FsEnt)
    (h : HistoryState) (m : CheckMap) : HistoryState × CheckMap × Bool :=
  if h.pos < (h.history.length : Int) - 1 then
    ({ history := h.history, pos := h.pos + 1 },
     setCheckedFiles gitIgn extIgn fs (h.history.getD (h.pos + 1).toNat []),
     false)
  else (h, m, true)

/-! # Theorems -/

/-! ## Association-list map lemmas -/

theorem alookup_aset {β : Type} (m : List (Path × β)) (p : Path) (v : β) (q : Path) :
    alookup (aset m p v) q = if q = p then some v else alookup m q := by
  induction m with
  | nil =>
    rcases eq_or_ne q p with h | h
    · subst h; simp [aset, alookup]
    · simp [aset, alookup, h, (Ne.symm h : p ≠ q)]
  | cons ent rest ih =>
    obtain ⟨a, w⟩ := ent
    rcases eq_or_ne a p with hap | hap
    · subst hap
      rcases eq_or_ne q a with hq | hq
      · subst hq; simp [aset, alookup]
      · simp [aset, alookup, hq, (Ne.symm hq : a ≠ q)]
    · rcases eq_or_ne a q with haq | haq
      · subst haq
        simp [aset, alookup, hap]
      · simp [aset, alookup, hap, haq, ih]

theorem alookup_mem {β : Type} {m : List (Path × β)} {p : Path} {v : β}
    (h : alookup m p = some v) : (p, v) ∈ m := by
  induction m with
  | nil => simp [alookup] at h
  | cons ent rest ih =>
    obtain ⟨a, w⟩ := ent
    by_cases hap : a = p
    · subst hap
      simp [alookup] at h
      simp [h]
    · simp [alookup, hap] at h
      exact List.mem_cons_of_mem _ (ih h)

theorem alookup_of_mem_nodup {β : Type} {m : List (Path × β)} {p : Path} {v : β}
    (hmem : (p, v) ∈ m) (hnd : (m.map Prod.fst).Nodup) : alookup m p = some v := by
  induction m with
  | nil => simp at hmem
  | cons ent rest ih =>
    obtain ⟨a, w⟩ := ent
    simp only [List.map_cons, List.nodup_cons] at hnd
    rcases List.mem_cons.mp hmem with heq | hrest
    · injection heq with h1 h2
      subst h1; subst h2
      simp [alookup]
    · have hne : a ≠ p := by
        intro h
        exact hnd.1 (h ▸ (List.mem_map.mpr ⟨(p, v), hrest, rfl⟩))
      simp [alookup, hne]
      exact ih hrest hnd.2

/-! ## C5: decode failures perform no filesystem effects -/

/-- C5: for every input text, if the decode stage fails (parse failure or no
file entries), `processXmlContent` reports that error and leaves storage
exactly as it was: no file is created or modified. -/
theorem decode_error_no_write (root : Path) (s : Str) (σ : Storage)
    (e : DecodeError) (h : decodeRecords s = Except.error e) :
    (processXmlContent root s σ).1 = σ ∧
      (processXmlContent root s σ).2 = some e := by
  simp [processXmlContent, h]

theorem decode_error_no_write_witness :
    decodeRecords (lit "garbage") = Except.error DecodeError.parseError ∧
      (processXmlContent [] (lit "garbage") [([lit "a"], lit "x")]).1 =
        [([lit "a"], lit "x")] :=
  ⟨rfl, (decode_error_no_write [] (lit "garbage") [([lit "a"], lit "x")]
    DecodeError.parseError rfl).1⟩

/-! ## C7: history boundaries are no-ops -/

/-- C7: from the empty history (the initial state `⟨[], -1⟩`, before any
copy has succeeded), both `goBack` and `goForward` fire the boundary
warning and leave the history cursor and the check-state map unchanged. -/
theorem history_boundary_noop (gitIgn : Path → Bool) (extIgn : Str → Bool)
    (fs : List FsEnt) (m : CheckMap) :
    goBack gitIgn extIgn fs ⟨[], -1⟩ m = (⟨[], -1⟩, m, true) ∧
      goForward gitIgn extIgn fs ⟨[], -1⟩ m = (⟨[], -1⟩, m, true) := by
  constructor <;> simp [goBack, goForward]

/-! ## C3: what `getCheckedFiles` returns -/

/-- C3 counterexample: a checked path whose node is a symbolic link to a
directory is returned by `getCheckedFiles` even though it does not denote a
plain file, so the claimed postcondition ("exactly those ... which denote a
plain file; directories ... excluded") is false as stated. -/
theorem getCheckedFiles_symlink_dir_cex :
    getCheckedFiles [([lit "d"], NodeKind.symDir)] [([lit "d"], true)] =
        [[lit "d"]] ∧
      resolvesToFile [([lit "d"], NodeKind.symDir)] [lit "d"] = false := by
  decide

/-- C3 (amended): `getCheckedFiles` returns exactly the paths whose stored
state is `Checked`, which currently exist (dangling entries excluded), and
which lstat as a plain file or as a symbolic link — including symbolic
links to directories. -/
theorem getCheckedFiles_mem_iff (st : List (Path × NodeKind)) (m : CheckMap)
    (p : Path) (hnd : (m.map Prod.fst).Nodup) :
    p ∈ getCheckedFiles st m ↔
      (alookup m p = some true ∧ existsSync st p = true ∧
        (lstatIsFile st p || lstatIsSymlink st p) = true) := by
  unfold getCheckedFiles
  constructor
  · intro hp
    obtain ⟨ent, hent, hfst⟩ := List.mem_map.mp hp
    obtain ⟨hmem, hpred⟩ := List.mem_filter.mp hent
    obtain ⟨a, v⟩ := ent
    obtain rfl : a = p := hfst
    simp only [Bool.and_eq_true] at hpred
    obtain ⟨⟨hv, hex⟩, hfl⟩ := hpred
    obtain rfl : v = true := hv
    exact ⟨alookup_of_mem_nodup hmem hnd, hex, hfl⟩
  · rintro ⟨hlk, hex, hfl⟩
    refine List.mem_map.mpr ⟨(p, true), List.mem_filter.mpr ⟨alookup_mem hlk, ?_⟩, rfl⟩
    simp [hex, hfl]

theorem getCheckedFiles_mem_iff_witness :
    (([([lit "a"], true)] : CheckMap).map Prod.fst).Nodup ∧
      ([lit "a"] ∈ getCheckedFiles [([lit "a"], NodeKind.file)] [([lit "a"], true)] ↔
        (alookup [([lit "a"], true)] [lit "a"] = some true ∧
          existsSync [([lit "a"], NodeKind.file)] [lit "a"] = true ∧
          (lstatIsFile [([lit "a"], NodeKind.file)] [lit "a"] ||
            lstatIsSymlink [([lit "a"], NodeKind.file)] [lit "a"]) = true)) :=
  ⟨by decide,
    getCheckedFiles_mem_iff [([lit "a"], NodeKind.file)] [([lit "a"], true)]
      [lit "a"] (by decide)⟩

/-! ## C6: re-applying a decoded record set -/

/-- C6 counterexample: a decoded record set may repeat a path with different
contents (decode keeps duplicates in document order).  Applying
`[(a, "x"), (a, "y")]` twice classifies files as modified on the second
application, so "zero modified on the second application" is false as
stated. -/
theorem reapply_duplicate_cex :
    (applyFiles [] [⟨lit "a", lit "x"⟩, ⟨lit "a", lit "y"⟩]
      (applyFiles [] [⟨lit "a", lit "x"⟩, ⟨lit "a", lit "y"⟩] []).storage).changed
      ≠ [] := by
  decide

theorem applyOne_storageEq (root : Path) (st : ApplyResult) (r : FileRecord) :
    (applyOne root st r).storage = applyOneStorage root st.storage r := by
  unfold applyOne applyOneStorage
  rcases eq_or_ne r.name [] with h | h
  · simp [h]
  · simp only [h, if_false, if_neg h]
    rcases hk : alookup st.storage (resolveName root r.name) with _ | ex
    · simp [hk]
    · rcases eq_or_ne ex r.content with he | he
      · simp [hk, he]
      · simp [hk, he]

theorem applyFiles_storageEq (root : Path) (rs : List FileRecord) :
    ∀ st : ApplyResult,
      (rs.foldl (applyOne root) st).storage =
        rs.foldl (applyOneStorage root) st.storage := by
  induction rs with
  | nil => intro st; rfl
  | cons r rs ih =>
    intro st
    simp only [List.foldl_cons, ih, applyOne_storageEq]

theorem applyOneStorage_lookup_other (root : Path) (σ : Storage)
    (r : FileRecord) (q : Path) (hq : r.name ≠ [] → resolveName root r.name ≠ q) :
    alookup (applyOneStorage root σ r) q = alookup σ q := by
  unfold applyOneStorage
  rcases eq_or_ne r.name [] with h | h
  · simp [h]
  · simp only [h, if_neg h]
    rcases hk : alookup σ (resolveName root r.name) with _ | ex
    · simp [alookup_aset, Ne.symm (hq h)]
    · rcases eq_or_ne ex r.content with he | he
      · simp [he]
      · simp [he, alookup_aset, Ne.symm (hq h)]

theorem foldStorage_lookup_other (root : Path) (q : Path) :
    ∀ (rs : List FileRecord) (σ : Storage),
      (∀ r ∈ rs, r.name ≠ [] → resolveName root r.name ≠ q) →
      alookup (rs.foldl (applyOneStorage root) σ) q = alookup σ q := by
  intro rs
  induction rs with
  | nil => intro σ _; rfl
  | cons r rs ih =>
    intro σ hall
    simp only [List.foldl_cons]
    rw [ih _ (fun r2 h2 => hall r2 (List.mem_cons_of_mem _ h2))]
    exact applyOneStorage_lookup_other root σ r q (hall r (List.mem_cons_self ..))

theorem applyOneStorage_lookup_self (root : Path) (σ : Storage)
    (r : FileRecord) (h : r.name ≠ []) :
    alookup (applyOneStorage root σ r) (resolveName root r.name) =
      some r.content := by
  unfold applyOneStorage
  simp only [if_neg h]
  rcases hk : alookup σ (resolveName root r.name) with _ | ex
  · simp [alookup_aset]
  · rcases eq_or_ne ex r.content with he | he
    · simp [hk, he]
    · simp [he, alookup_aset]

/-- After one application, every record (with pairwise distinct resolved
paths) is stored at its resolved path with exactly its content. -/
theorem foldStorage_lookup_self (root : Path) :
    ∀ (rs : List FileRecord) (σ : Storage) (r : FileRecord), r ∈ rs →
      r.name ≠ [] →
      rs.Pairwise (fun r1 r2 => r1.name ≠ [] → r2.name ≠ [] →
        resolveName root r1.name ≠ resolveName root r2.name) →
      alookup (rs.foldl (applyOneStorage root) σ) (resolveName root r.name) =
        some r.content := by
  intro rs
  induction rs with
  | nil => intro σ r hr; simp at hr
  | cons r0 rs ih =>
    intro σ r hr hname hpw
    have hpw' := (List.pairwise_cons.mp hpw)
    rcases List.mem_cons.mp hr with rfl | hmem
    · simp only [List.foldl_cons]
      rw [foldStorage_lookup_other root _ rs _
        (fun r2 h2 hn2 => (hpw'.1 r2 h2 hname hn2).symm)]
      exact applyOneStorage_lookup_self root σ r hname
    · simp only [List.foldl_cons]
      exact ih _ r hmem hname hpw'.2

/-- If every record's resolved path already stores exactly its content,
applying the records changes nothing and classifies nothing. -/
theorem applyFiles_noop (root : Path) :
    ∀ (rs : List FileRecord) (σ : Storage),
      (∀ r ∈ rs, r.name ≠ [] →
        alookup σ (resolveName root r.name) = some r.content) →
      applyFiles root rs σ = { storage := σ, changed := [], newFiles := [] } := by
  intro rs
  induction rs with
  | nil => intro σ _; rfl
  | cons r rs ih
  => intro σ hall
     have hstep : applyOne root { storage := σ, changed := [], newFiles := [] } r
         = { storage := σ, changed := [], newFiles := [] } := by
       unfold applyOne
       rcases eq_or_ne r.name [] with h | h
       · simp [h]
       · simp [h, hall r (List.mem_cons_self ..) h]
     show List.foldl (applyOne root) _ (r :: rs) = _
     rw [List.foldl_cons, hstep]
     exact ih σ (fun r2 h2 => hall r2 (List.mem_cons_of_mem _ h2))

/-- C6 (amended): for record sets whose (non-skipped) records resolve to
pairwise distinct paths, the second application of the same record set
classifies zero files as modified and zero as new, and writes nothing. -/
theorem reapply_clean (root : Path) (rs : List FileRecord) (σ : Storage)
    (hpw : rs.Pairwise (fun r1 r2 => r1.name ≠ [] → r2.name ≠ [] →
      resolveName root r1.name ≠ resolveName root r2.name)) :
    applyFiles root rs (applyFiles root rs σ).storage =
      { storage := (applyFiles root rs σ).storage, changed := [],
        newFiles := [] } := by
  apply applyFiles_noop
  intro r hr hname
  rw [show (applyFiles root rs σ).storage = rs.foldl (applyOneStorage root) σ from
    applyFiles_storageEq root rs _]
  exact foldStorage_lookup_self root rs σ r hr hname hpw

theorem reapply_clean_witness :
    ([⟨lit "a", lit "x"⟩, ⟨lit "b", lit "y"⟩] :
        List FileRecord).Pairwise (fun r1 r2 => r1.name ≠ [] → r2.name ≠ [] →
          resolveName [] r1.name ≠ resolveName [] r2.name) ∧
      applyFiles [] [⟨lit "a", lit "x"⟩, ⟨lit "b", lit "y"⟩]
          (applyFiles [] [⟨lit "a", lit "x"⟩, ⟨lit "b", lit "y"⟩] []).storage =
        { storage := (applyFiles [] [⟨lit "a", lit "x"⟩, ⟨lit "b", lit "y"⟩]
            []).storage, changed := [], newFiles := [] } :=
  ⟨by decide, reapply_clean [] [⟨lit "a", lit "x"⟩, ⟨lit "b", lit "y"⟩] []
    (by decide)⟩

/-! ## C8: the apply step can write outside the workspace root -/

/-- C8: pasting an envelope whose file entry names `../evil.txt` makes the
apply step write a file at a path that is not under the workspace root:
the name is joined onto the root with no validation, and `..` escapes. -/
theorem traversal_escape :
    alookup (processXmlContent [lit "home", lit "ws"]
        (generateXmlOutput [⟨lit "../evil.txt", lit "x"⟩]) []).1
      [lit "home", lit "evil.txt"] = some (lit "\nx\n") ∧
    ¬ ([lit "home", lit "ws"] <+: [lit "home", lit "evil.txt"]) :=
  ⟨rfl, by decide⟩

/-! ## C4 / C9: the directory listing -/

theorem childrenOf_mem {fs : List FsEnt} {p : Path} {e : FsEnt}
    (he : e ∈ childrenOf fs p) : e.path.dropLast = p ∧ e.path ≠ [] := by
  have h := (List.mem_filter.mp he).2
  exact of_decide_eq_true h

theorem childrenOf_path_len {fs : List FsEnt} {p : Path} {e : FsEnt}
    (he : e ∈ childrenOf fs p) : e.path.length = p.length + 1 := by
  obtain ⟨hdl, hne⟩ := childrenOf_mem he
  have h1 : e.path.dropLast.length = e.path.length - 1 := List.length_dropLast _
  have h2 : 0 < e.path.length := List.length_pos.mpr hne
  rw [hdl] at h1
  omega

theorem childrenOf_path_ne_dir {fs : List FsEnt} {p : Path} {e : FsEnt}
    (he : e ∈ childrenOf fs p) : e.path ≠ p := by
  intro h
  have := childrenOf_path_len he
  rw [h] at this
  omega

theorem itemOf_map_congr (gitIgn : Path → Bool) (extIgn : Str → Bool)
    (dirPath : Path) (m1 m2 : CheckMap) (e : FsEnt)
    (h1 : alookup m1 e.path = alookup m2 e.path)
    (h2 : alookup m1 dirPath = alookup m2 dirPath) :
    itemOf gitIgn extIgn dirPath m1 e = itemOf gitIgn extIgn dirPath m2 e := by
  unfold itemOf listedState
  rw [h1, h2]

theorem listStep_map_lookup (gitIgn : Path → Bool) (extIgn : Str → Bool)
    (dirPath : Path) (acc : List ListedItem × CheckMap) (e : FsEnt) (q : Path)
    (hq : e.path ≠ q) :
    alookup (listStep gitIgn extIgn dirPath acc e).2 q = alookup acc.2 q := by
  unfold listStep
  split
  · simp [alookup_aset, Ne.symm hq]
  · rfl

theorem listFold_map_lookup (gitIgn : Path → Bool) (extIgn : Str → Bool)
    (dirPath : Path) (q : Path) :
    ∀ (cs : List FsEnt) (acc : List ListedItem × CheckMap),
      (∀ e ∈ cs, e.path ≠ q) →
      alookup (cs.foldl (listStep gitIgn extIgn dirPath) acc).2 q =
        alookup acc.2 q := by
  intro cs
  induction cs with
  | nil => intro acc _; rfl
  | cons e cs ih =>
    intro acc hall
    rw [List.foldl_cons, ih _ (fun e2 h2 => hall e2 (List.mem_cons_of_mem _ h2)),
      listStep_map_lookup _ _ _ _ _ _ (hall e (List.mem_cons_self ..))]

theorem listFold_items (gitIgn : Path → Bool) (extIgn : Str → Bool)
    (dirPath : Path) :
    ∀ (cs : List FsEnt) (items : List ListedItem) (m : CheckMap),
      (cs.map FsEnt.path).Nodup →
      (∀ e ∈ cs, e.path.length = dirPath.length + 1) →
      (cs.foldl (listStep gitIgn extIgn dirPath) (items, m)).1 =
        items ++ cs.map (itemOf gitIgn extIgn dirPath m) := by
  intro cs
  induction cs with
  | nil => intro items m _ _; simp
  | cons e cs ih =>
    intro items m hnd hlen
    simp only [List.map_cons, List.nodup_cons] at hnd
    have hstep : listStep gitIgn extIgn dirPath (items, m) e =
        (items ++ [itemOf gitIgn extIgn dirPath m e],
         (listStep gitIgn extIgn dirPath (items, m) e).2) := rfl
    rw [List.foldl_cons, hstep,
      ih _ _ hnd.2 (fun e2 h2 => hlen e2 (List.mem_cons_of_mem _ h2))]
    rw [List.map_congr_left (fun e2 (h2 : e2 ∈ cs) =>
      itemOf_map_congr gitIgn extIgn dirPath _ m e2
        (listStep_map_lookup gitIgn extIgn dirPath (items, m) e e2.path
          (fun h => hnd.1 (h ▸ List.mem_map_of_mem FsEnt.path h2)))
        (listStep_map_lookup gitIgn extIgn dirPath (items, m) e dirPath
          (fun h => by
            have := hlen e (List.mem_cons_self ..)
            rw [h] at this
            omega)))]
    simp

theorem getFAD_items (gitIgn : Path → Bool) (extIgn : Str → Bool)
    (fs : List FsEnt) (dirPath : Path) (m : CheckMap)
    (hnd : ((childrenOf fs dirPath).map FsEnt.path).Nodup) :
    (getFilesAndDirectories gitIgn extIgn fs dirPath m).1 =
      (childrenOf fs dirPath).map (itemOf gitIgn extIgn dirPath m) := by
  unfold getFilesAndDirectories
  rw [listFold_items gitIgn extIgn dirPath _ [] m hnd
    (fun e he => childrenOf_path_len he)]
  rfl

/-- C4 counterexample: with `g` checked in the map and nothing stored for
`g/p`, listing `g/p` reports its entry `e` `Unchecked`, although the
nearest ancestor with a stored state (`g`) is `Checked` and `e` is not
ignored — inheritance only consults the immediate parent. -/
theorem listing_grandparent_cex :
    (getFilesAndDirectories (fun _ => false) (fun _ => false)
        [⟨[lit "g"], true⟩, ⟨[lit "g", lit "p"], true⟩,
         ⟨[lit "g", lit "p", lit "e"], false⟩]
        [lit "g", lit "p"] [([lit "g"], true)]).1 =
      [{ name := lit "e", path := [lit "g", lit "p", lit "e"], isDir := false,
         ignored := false, checkbox := false }] ∧
    nearestStoredAncestor [([lit "g"], true)] [lit "g", lit "p", lit "e"] =
      some true ∧
    isIgnoredEnt (fun _ => false) (fun _ => false)
      ⟨[lit "g", lit "p", lit "e"], false⟩ = false := by
  decide

/-- C4 (amended): in a listing, an entry absent from the check-state map is
reported `Checked` iff the listed directory's own (immediate parent's)
stored state is `Checked` and the entry is not ignored; the states of
further ancestors are not consulted. -/
theorem listing_inherits_parent_only (gitIgn : Path → Bool) (extIgn : Str → Bool)
    (fs : List FsEnt) (dirPath : Path) (m : CheckMap) (e : FsEnt)
    (hnd : ((childrenOf fs dirPath).map FsEnt.path).Nodup)
    (he : e ∈ childrenOf fs dirPath)
    (h0 : alookup m e.path = none) :
    itemOf gitIgn extIgn dirPath m e ∈
        (getFilesAndDirectories gitIgn extIgn fs dirPath m).1 ∧
      ((itemOf gitIgn extIgn dirPath m e).checkbox = true ↔
        (alookup m dirPath = some true ∧ isIgnoredEnt gitIgn extIgn e = false)) := by
  constructor
  · rw [getFAD_items gitIgn extIgn fs dirPath m hnd]
    exact List.mem_map_of_mem _ he
  · have hcb : (itemOf gitIgn extIgn dirPath m e).checkbox =
        (listedState gitIgn extIgn dirPath m e).1 := rfl
    rw [hcb]
    unfold listedState
    by_cases h : alookup m dirPath = some true ∧ isIgnoredEnt gitIgn extIgn e = false
    · simp [h0, h]
    · simp [h0, h]

theorem listing_inherits_parent_only_witness :
    ((childrenOf [⟨[lit "p"], true⟩, ⟨[lit "p", lit "e"], false⟩]
        [lit "p"]).map FsEnt.path).Nodup ∧
    (⟨[lit "p", lit "e"], false⟩ : FsEnt) ∈
      childrenOf [⟨[lit "p"], true⟩, ⟨[lit "p", lit "e"], false⟩] [lit "p"] ∧
    alookup ([([lit "p"], true)] : CheckMap) [lit "p", lit "e"] = none ∧
    (itemOf (fun _ => false) (fun _ => false) [lit "p"] [([lit "p"], true)]
        ⟨[lit "p", lit "e"], false⟩ ∈
      (getFilesAndDirectories (fun _ => false) (fun _ => false)
        [⟨[lit "p"], true⟩, ⟨[lit "p", lit "e"], false⟩]
        [lit "p"] [([lit "p"], true)]).1) :=
  ⟨by decide, by decide, by decide,
    (listing_inherits_parent_only (fun _ => false) (fun _ => false)
      [⟨[lit "p"], true⟩, ⟨[lit "p", lit "e"], false⟩] [lit "p"]
      [([lit "p"], true)] ⟨[lit "p", lit "e"], false⟩
      (by decide) (by decide) (by decide)).1⟩

/-- C9: listing a directory is not a pure query — when an entry has no
stored state, the listed directory's stored state is `Checked`, and the
entry is not ignored, the listing writes `Checked` for that entry into the
check-state map it returns (the entry was absent before, by hypothesis). -/
theorem listing_writes_inherited (gitIgn : Path → Bool) (extIgn : Str → Bool)
    (fs : List FsEnt) (dirPath : Path) (m : CheckMap) (e : FsEnt)
    (hnd : ((childrenOf fs dirPath).map FsEnt.path).Nodup)
    (he : e ∈ childrenOf fs dirPath)
    (h0 : alookup m e.path = none)
    (hp : alookup m dirPath = some true)
    (hig : isIgnoredEnt gitIgn extIgn e = false) :
    alookup (getFilesAndDirectories gitIgn extIgn fs dirPath m).2 e.path =
      some true := by
  unfold getFilesAndDirectories
  have hgen : ∀ (cs : List FsEnt) (acc : List ListedItem × CheckMap),
      (cs.map FsEnt.path).Nodup →
      (∀ e2 ∈ cs, e2.path.length = dirPath.length + 1) →
      e ∈ cs →
      alookup acc.2 e.path = none →
      alookup acc.2 dirPath = some true →
      alookup (cs.foldl (listStep gitIgn extIgn dirPath) acc).2 e.path =
        some true := by
    intro cs
    induction cs with
    | nil => intro acc _ _ hmem; simp at hmem
    | cons c cs ih =>
      intro acc hnd2 hlen hmem h02 hp2
      simp only [List.map_cons, List.nodup_cons] at hnd2
      rcases List.mem_cons.mp hmem with rfl | hmem2
      · rw [List.foldl_cons,
          listFold_map_lookup gitIgn extIgn dirPath e.path cs _
            (fun e2 h2 h => hnd2.1 (h ▸ List.mem_map_of_mem FsEnt.path h2))]
        unfold listStep listedState
        simp [h02, hp2, hig, alookup_aset]
      · rw [List.foldl_cons]
        refine ih _ hnd2.2 (fun e2 h2 => hlen e2 (List.mem_cons_of_mem _ h2))
          hmem2 ?_ ?_
        · rw [listStep_map_lookup gitIgn extIgn dirPath acc c e.path
            (fun h => hnd2.1 (h ▸ List.mem_map_of_mem FsEnt.path hmem2))]
          exact h02
        · rw [listStep_map_lookup gitIgn extIgn dirPath acc c dirPath
            (fun h => by
              have := hlen c (List.mem_cons_self ..)
              rw [h] at this
              omega)]
          exact hp2
  exact hgen _ ([], m) hnd (fun e2 h2 => childrenOf_path_len h2) he h0 hp

theorem listing_writes_inherited_witness :
    alookup ([([lit "p"], true)] : CheckMap) [lit "p", lit "e"] = none ∧
      alookup (getFilesAndDirectories (fun _ => false) (fun _ => false)
          [⟨[lit "p"], true⟩, ⟨[lit "p", lit "e"], false⟩]
          [lit "p"] [([lit "p"], true)]).2 [lit "p", lit "e"] = some true :=
  ⟨by decide,
    listing_writes_inherited (fun _ => false) (fun _ => false)
      [⟨[lit "p"], true⟩, ⟨[lit "p", lit "e"], false⟩] [lit "p"]
      [([lit "p"], true)] ⟨[lit "p", lit "e"], false⟩
      (by decide) (by decide) (by decide) (by decide) (by decide)⟩

/-! ## C2: the directory check-state invariant -/

theorem checkStateOf_congr {m1 m2 : CheckMap} (p : Path)
    (h : alookup m1 p = alookup m2 p) : checkStateOf m1 p = checkStateOf m2 p := by
  unfold checkStateOf
  rw [h]

theorem nonIgnChildren_sub {gitIgn : Path → Bool} {extIgn : Str → Bool}
    {fs : List FsEnt} {p : Path} {e : FsEnt}
    (he : e ∈ nonIgnChildren gitIgn extIgn fs p) : e ∈ childrenOf fs p :=
  (List.mem_filter.mp he).1

theorem updateParentState_lookup (gitIgn : Path → Bool) (extIgn : Str → Bool)
    (fs : List FsEnt) (p : Path) (m : CheckMap) (q : Path) :
    alookup (updateParentState gitIgn extIgn fs p m) q =
      if q = p then some (parentStateValue gitIgn extIgn fs m p)
      else alookup m q := by
  unfold updateParentState
  exact alookup_aset m p _ q

theorem not_isEmpty_iff {α : Type} (l : List α) : (!l.isEmpty) = true ↔ l ≠ [] := by
  cases l <;> simp

theorem dirInvariant_iff_congr (gitIgn : Path → Bool) (extIgn : Str → Bool)
    (fs : List FsEnt) (m1 m2 : CheckMap) (A : Path)
    (hp : alookup m1 A = alookup m2 A)
    (hc : ∀ e ∈ nonIgnChildren gitIgn extIgn fs A,
      alookup m1 e.path = alookup m2 e.path) :
    dirInvariant gitIgn extIgn fs m1 A ↔ dirInvariant gitIgn extIgn fs m2 A := by
  unfold dirInvariant
  rw [checkStateOf_congr A hp]
  exact iff_congr Iff.rfl (and_congr Iff.rfl (forall_congr' fun e =>
    imp_congr_right fun he => by rw [checkStateOf_congr e.path (hc e he)]))

/-- `updateParentState` restores the invariant at the directory it
recomputes. -/
theorem updateParentState_self_invariant (gitIgn : Path → Bool)
    (extIgn : Str → Bool) (fs : List FsEnt) (p : Path) (m : CheckMap) :
    dirInvariant gitIgn extIgn fs (updateParentState gitIgn extIgn fs p m) p := by
  have hchild : ∀ e ∈ nonIgnChildren gitIgn extIgn fs p,
      alookup (updateParentState gitIgn extIgn fs p m) e.path =
        alookup m e.path := by
    intro e he
    rw [updateParentState_lookup,
      if_neg (childrenOf_path_ne_dir (nonIgnChildren_sub he))]
  have hself : checkStateOf (updateParentState gitIgn extIgn fs p m) p =
      parentStateValue gitIgn extIgn fs m p := by
    unfold checkStateOf
    rw [updateParentState_lookup, if_pos rfl]
    rfl
  unfold dirInvariant
  rw [hself]
  unfold parentStateValue
  rw [Bool.and_eq_true, not_isEmpty_iff, List.all_eq_true]
  exact and_congr Iff.rfl (forall_congr' fun e => imp_congr_right fun he => by
    rw [checkStateOf_congr e.path (hchild e he)])

theorem walkFold_lookup (gitIgn : Path → Bool) (extIgn : Str → Bool)
    (fs : List FsEnt) (q : Path) :
    ∀ (chain : List Path) (m : CheckMap), (∀ a ∈ chain, a ≠ q) →
      alookup (chain.foldl
        (fun m' a => updateParentState gitIgn extIgn fs a m') m) q =
        alookup m q := by
  intro chain
  induction chain with
  | nil => intro m _; rfl
  | cons a rest ih =>
    intro m hall
    rw [List.foldl_cons, ih _ (fun b hb => hall b (List.mem_cons_of_mem _ hb)),
      updateParentState_lookup,
      if_neg (Ne.symm (hall a (List.mem_cons_self ..)))]

/-- After the ancestor walk, every directory that the walk recomputed
satisfies the invariant, provided the chain is visited in order of strictly
decreasing depth (which the `dirname` walk guarantees). -/
theorem walkFold_invariant (gitIgn : Path → Bool) (extIgn : Str → Bool)
    (fs : List FsEnt) :
    ∀ (chain : List Path) (m : CheckMap) (A : Path),
      chain.Pairwise (fun a b => b.length < a.length) →
      A ∈ chain →
      dirInvariant gitIgn extIgn fs
        (chain.foldl (fun m' a => updateParentState gitIgn extIgn fs a m') m)
        A := by
  intro chain
  induction chain with
  | nil => intro m A _ hA; simp at hA
  | cons c rest ih =>
    intro m A hpw hA
    have hpw' := List.pairwise_cons.mp hpw
    rw [List.foldl_cons]
    rcases List.mem_cons.mp hA with rfl | hmem
    · have h1 : alookup (rest.foldl
          (fun m' a => updateParentState gitIgn extIgn fs a m')
          (updateParentState gitIgn extIgn fs A m)) A =
          alookup (updateParentState gitIgn extIgn fs A m) A :=
        walkFold_lookup gitIgn extIgn fs A rest _
          (fun b hb h => absurd (h ▸ hpw'.1 b hb) (lt_irrefl _))

      have h2 : ∀ e ∈ nonIgnChildren gitIgn extIgn fs A,
          alookup (rest.foldl
            (fun m' a => updateParentState gitIgn extIgn fs a m')
            (updateParentState gitIgn extIgn fs A m)) e.path =
            alookup (updateParentState gitIgn extIgn fs A m) e.path :=
        fun e he => walkFold_lookup gitIgn extIgn fs e.path rest _
          (fun b hb h => by
            have hlb := hpw'.1 b hb
            have hle := childrenOf_path_len (nonIgnChildren_sub he)
            rw [h] at hlb
            omega)
      rw [dirInvariant_iff_congr gitIgn extIgn fs _ _ A h1 h2]
      exact updateParentState_self_invariant gitIgn extIgn fs A m
    · exact ih _ A hpw'.2 hmem

theorem ancestorChain_pairwise (p : Path) :
    (ancestorChain p).Pairwise (fun a b => b.length < a.length) := by
  unfold ancestorChain
  rw [List.pairwise_map]
  have h1 : (List.range p.length).reverse.Pairwise (fun i j => j < i) := by
    rw [List.pairwise_reverse]
    exact List.pairwise_lt_range p.length
  refine h1.imp_of_mem ?_
  intro i j hi hj hlt
  rw [List.mem_reverse, List.mem_range] at hi hj
  rw [List.length_take, List.length_take]
  omega

/-- C2 counterexample: in a workspace whose only entry is the empty
directory `d`, checking `d` leaves `d`'s queried state `Checked` although
`d` has zero non-ignored children, so the claimed invariant — required to
hold for the toggled directory itself — fails after this single
`updateCheckState`. -/
theorem toggle_empty_dir_cex :
    ¬ dirInvariant (fun _ => false) (fun _ => false) [⟨[lit "d"], true⟩]
      (updateCheckState (fun _ => false) (fun _ => false) [⟨[lit "d"], true⟩]
        [lit "d"] true true []) [lit "d"] := by
  decide

/-- C2 (amended): after any single `updateCheckState` call, from any prior
map state, the directory-state invariant holds at every proper ancestor of
the toggled path (the directories the `dirname` walk recomputes).  It does
not in general hold at the toggled directory itself, which the walk never
recomputes (see the counterexample of the empty checked directory). -/
theorem updateCheckState_ancestor_invariant (gitIgn : Path → Bool)
    (extIgn : Str → Bool) (fs : List FsEnt) (itemPath : Path)
    (isDir state : Bool) (m : CheckMap) (A : Path)
    (hA : A ∈ ancestorChain itemPath) :
    dirInvariant gitIgn extIgn fs
      (updateCheckState gitIgn extIgn fs itemPath isDir state m) A := by
  unfold updateCheckState
  exact walkFold_invariant gitIgn extIgn fs (ancestorChain itemPath) _ A
    (ancestorChain_pairwise itemPath) hA

theorem updateCheckState_ancestor_invariant_witness :
    [lit "d"] ∈ ancestorChain [lit "d", lit "x"] ∧
      dirInvariant (fun _ => false) (fun _ => false)
        [⟨[lit "d"], true⟩, ⟨[lit "d", lit "x"], false⟩]
        (updateCheckState (fun _ => false) (fun _ => false)
          [⟨[lit "d"], true⟩, ⟨[lit "d", lit "x"], false⟩]
          [lit "d", lit "x"] false true []) [lit "d"] :=
  ⟨by decide,
    updateCheckState_ancestor_invariant (fun _ => false) (fun _ => false)
      [⟨[lit "d"], true⟩, ⟨[lit "d", lit "x"], false⟩]
      [lit "d", lit "x"] false true [] [lit "d"] (by decide)⟩

/-! ## C1: round-trip of the Envelope Codec -/

theorem dropPre_append (p : Str) : ∀ s, dropPre p (p ++ s) = some s := by
  induction p with
  | nil => intro s; rfl
  | cons c p ih => intro s; simp [dropPre, ih]

theorem dropPre_none_iff (p : Str) : ∀ s, dropPre p s = none ↔ ¬ (p <+: s) := by
  induction p with
  | nil => intro s; simp [dropPre]
  | cons c p ih =>
    intro s
    cases s with
    | nil => simp [dropPre]
    | cons d s2 =>
      by_cases h : c = d
      · subst h
        simp [dropPre, ih, List.cons_prefix_cons]
      · simp [dropPre, h, List.cons_prefix_cons]

/-- `splitAtSubstr` finds exactly the first marker occurrence: when no
occurrence starts inside `a`, splitting `a ++ m ++ b` yields `(a, b)`. -/
theorem splitAtSubstr_exact (m : Str) (hm : m ≠ []) :
    ∀ (a b : Str),
      (∀ a1 a2, a = a1 ++ a2 → a2 ≠ [] → ¬ (m <+: (a2 ++ (m ++ b)))) →
      splitAtSubstr m (a ++ (m ++ b)) = some (a, b) := by
  intro a
  induction a with
  | nil =>
    intro b _
    rcases m with _ | ⟨c, m2⟩
    · exact absurd rfl hm
    · show splitAtSubstr (c :: m2) ((c :: m2) ++ b) = some ([], b)
      have hd : dropPre (c :: m2) ((c :: m2) ++ b) = some b := dropPre_append _ _
      simp only [List.cons_append] at hd ⊢
      simp [splitAtSubstr, hd]
  | cons ch a2 ih =>
    intro b hocc
    have h0 : ¬ (m <+: ((ch :: a2) ++ (m ++ b))) :=
      hocc [] (ch :: a2) rfl (by simp)
    have hd : dropPre m (ch :: (a2 ++ (m ++ b))) = none := by
      rw [dropPre_none_iff]
      intro hp
      exact h0 (by simpa using hp)
    have hrec := ih b (fun a1 a3 h1 h2 => hocc (ch :: a1) a3 (by rw [h1]; rfl) h2)
    show splitAtSubstr m (ch :: (a2 ++ (m ++ b))) = some (ch :: a2, b)
    simp [splitAtSubstr, hd, hrec]

/-- A name containing no double quote contains no occurrence of the
attribute-closing quote marker. -/
theorem no_occ_quote (nm : Str) (hq : '"' ∉ nm) (b : Str) :
    ∀ a1 a2, nm = a1 ++ a2 → a2 ≠ [] →
      ¬ ((lit "\"") <+: (a2 ++ (lit "\"" ++ b))) := by
  intro a1 a2 heq hne hp
  cases a2 with
  | nil => exact hne rfl
  | cons w t =>
    have hw : '"' = w := (List.cons_prefix_cons.mp hp).1
    apply hq
    rw [heq, ← hw]
    exact List.mem_append_right _ (List.mem_cons_self ..)

theorem append_singleton_injEq {α : Type} {xs ys : List α} {p q : α}
    (h : xs ++ [p] = ys ++ [q]) : xs = ys ∧ p = q := by
  have h2 := congrArg List.reverse h
  simp only [List.reverse_append, List.reverse_cons, List.reverse_nil,
    List.nil_append, List.singleton_append] at h2
  injection h2 with h3 h4
  exact ⟨List.reverse_inj.mp h4, h3⟩

/-- Inside a CDATA region `\n ++ c ++ \n` followed by the closing `]]>`, no
occurrence of `]]>` starts before the closing one, provided the content `c`
does not contain `]]>`. -/
theorem no_occ_cdata (c : Str) (hc : ¬ ((lit "]]>") <:+: c)) (b : Str) :
    ∀ a1 a2, ('\n' :: (c ++ ['\n'])) = a1 ++ a2 → a2 ≠ [] →
      ¬ ((lit "]]>") <+: (a2 ++ (lit "]]>" ++ b))) := by
  have hl : (lit "]]>" : Str) = ']' :: ']' :: '>' :: [] := rfl
  intro a1 a2 heq hne hp
  obtain ⟨t, ht⟩ := hp
  rw [hl] at ht
  rcases a2 with _ | ⟨x, _ | ⟨y, _ | ⟨z, r⟩⟩⟩
  · exact hne rfl
  · simp only [List.cons_append, List.nil_append] at ht
    injection ht with h1 ht2; injection ht2 with h2 ht3; injection ht3 with h3 _
    exact absurd h3 (by decide)
  · simp only [List.cons_append, List.nil_append] at ht
    injection ht with h1 ht2; injection ht2 with h2 ht3; injection ht3 with h3 _
    exact absurd h3 (by decide)
  · simp only [List.cons_append, List.nil_append] at ht
    injection ht with hx ht2; injection ht2 with hy ht3; injection ht3 with hz _
    subst hx; subst hy; subst hz
    cases a1 with
    | nil =>
      injection heq with h1 _
      exact absurd h1 (by decide)
    | cons u a3 =>
      simp only [List.cons_append] at heq
      injection heq with hu hc2
      by_cases hr : r = []
      · subst hr
        have h3 : c ++ ['\n'] = (a3 ++ [']', ']']) ++ ['>'] := by
          rw [hc2]; simp
        obtain ⟨_, hlast⟩ := append_singleton_injEq h3
        exact absurd hlast (by decide)
      · have hr2 := List.dropLast_append_getLast hr
        rw [← hr2] at hc2
        have h3 : c ++ ['\n'] =
            (a3 ++ (']' :: ']' :: '>' :: r.dropLast)) ++ [r.getLast hr] := by
          rw [hc2]; simp
        obtain ⟨hinit, _⟩ := append_singleton_injEq h3
        apply hc
        refine ⟨a3, r.dropLast, ?_⟩
        rw [hl, hinit]
        simp

/-- Decoding one encoded entry recovers the record with its content
newline-padded, leaving the rest of the input untouched. -/
theorem parseEntry_entry (r : FileRecord) (rest : Str)
    (hq : '"' ∉ r.name) (hmk : ¬ ((lit "]]>") <:+: r.content)) :
    parseEntry (fileEntryText r ++ rest) = some (padRecord r, rest) := by
  have e1 : (lit "\">\n<![CDATA[\n" : Str) =
      lit "\"" ++ (lit ">\n<![CDATA[" ++ ['\n']) := rfl
  have e2 : (lit "\n]]>\n</file>\n" : Str) =
      ['\n'] ++ (lit "]]>" ++ lit "\n</file>\n") := rfl
  have harg : fileEntryText r ++ rest =
      lit "<file name=\"" ++
        (r.name ++ (lit "\"" ++ (lit ">\n<![CDATA[" ++
          (('\n' :: (r.content ++ ['\n'])) ++ (lit "]]>" ++
            (lit "\n</file>\n" ++ rest)))))) := by
    unfold fileEntryText
    rw [e1, e2]
    simp [List.append_assoc]
  rw [harg]
  unfold parseEntry
  rw [dropPre_append]
  simp only [Option.some_bind]
  rw [splitAtSubstr_exact (lit "\"") (by decide) r.name _
    (no_occ_quote r.name hq _)]
  simp only [Option.some_bind]
  rw [dropPre_append]
  simp only [Option.some_bind]
  rw [splitAtSubstr_exact (lit "]]>") (by decide) ('\n' :: (r.content ++ ['\n'])) _
    (no_occ_cdata r.content hmk _)]
  simp only [Option.some_bind]
  rw [dropPre_append]
  simp only [Option.map_some']
  rfl

theorem parseEntries_entries :
    ∀ (rs : List FileRecord) (fuel : Nat) (rest : Str),
      rs.length + 1 ≤ fuel →
      (∀ r ∈ rs, '"' ∉ r.name ∧ ¬ ((lit "]]>") <:+: r.content)) →
      parseEntry rest = none →
      parseEntries fuel ((rs.map fileEntryText).flatten ++ rest) =
        some (rs.map padRecord, rest) := by
  intro rs
  induction rs with
  | nil =>
    intro fuel rest hfuel _ hstop
    match fuel, hfuel with
    | fuel + 1, _ =>
      show parseEntries (fuel + 1) ([] ++ rest) = some ([], rest)
      simp [parseEntries, hstop]
  | cons r rs ih =>
    intro fuel rest hfuel hgood hstop
    match fuel, hfuel with
    | fuel + 1, hfuel =>
      have hhead := hgood r (List.mem_cons_self ..)
      have harg : ((r :: rs).map fileEntryText).flatten ++ rest =
          fileEntryText r ++ ((rs.map fileEntryText).flatten ++ rest) := by
        simp
      rw [harg]
      have hentry := parseEntry_entry r ((rs.map fileEntryText).flatten ++ rest)
        hhead.1 hhead.2
      have hrec := ih fuel rest
        (by simp only [List.length_cons] at hfuel; omega)
        (fun r2 h2 => hgood r2 (List.mem_cons_of_mem _ h2)) hstop
      simp [parseEntries, hentry, hrec]

theorem fileEntryText_len (r : FileRecord) : 1 ≤ (fileEntryText r).length := by
  unfold fileEntryText
  have h12 : (lit "<file name=\"" : Str).length = 12 := rfl
  simp only [List.length_append, h12]
  omega

theorem flatten_entries_len (rs : List FileRecord) :
    rs.length ≤ ((rs.map fileEntryText).flatten).length := by
  induction rs with
  | nil => simp
  | cons r rs ih =>
    simp only [List.map_cons, List.flatten_cons, List.length_append,
      List.length_cons]
    have := fileEntryText_len r
    omega

/-- C1 counterexample: the codec does not round-trip.  Decoding the
encoding of the single record `(f.txt, "x")` yields content `"\nx\n"`, not
`"x"`: the encoder's CDATA framing adds a newline on each side and nothing
removes them. -/
theorem roundtrip_cex :
    decodeRecords (generateXmlOutput [⟨lit "f.txt", lit "x"⟩]) =
        Except.ok [⟨lit "f.txt", lit "\nx\n"⟩] ∧
      (⟨lit "f.txt", lit "\nx\n"⟩ : FileRecord) ≠ ⟨lit "f.txt", lit "x"⟩ :=
  ⟨rfl, by decide⟩

/-- C1 (amended): the encoder escapes nothing; round-trip holds only up to
newline padding and only away from the colliding inputs.  For every
nonempty record list whose names contain no double quote and whose contents
do not contain the verbatim-close marker `]]>`, decoding the encoding
succeeds and returns the records in order, names unchanged, with each
content wrapped in one extra newline on each side. -/
theorem decode_encode_padded (rs : List FileRecord) (hne : rs ≠ [])
    (hgood : ∀ r ∈ rs, '"' ∉ r.name ∧ ¬ ((lit "]]>") <:+: r.content)) :
    decodeRecords (generateXmlOutput rs) = Except.ok (rs.map padRecord) := by
  unfold decodeRecords generateXmlOutput
  rw [List.append_assoc]
  have h1 : dropPre (lit "<files>\n")
      (lit "<files>\n" ++ ((rs.map fileEntryText).flatten ++ lit "</files>")) =
      some ((rs.map fileEntryText).flatten ++ lit "</files>") := dropPre_append _ _
  have hstop : parseEntry (lit "</files>") = none := rfl
  have hfuel : rs.length + 1 ≤
      ((rs.map fileEntryText).flatten ++ lit "</files>").length + 1 := by
    rw [List.length_append]
    have := flatten_entries_len rs
    omega
  have h2 := parseEntries_entries rs
    (((rs.map fileEntryText).flatten ++ lit "</files>").length + 1)
    (lit "</files>") hfuel hgood hstop
  have hmapne : rs.map padRecord ≠ [] := fun h => hne (List.map_eq_nil_iff.mp h)
  simp only [h1]
  simp only [h2]
  simp [hmapne]

theorem decode_encode_padded_witness :
    (([⟨lit "f.txt", lit "hello"⟩] : List FileRecord) ≠ [] ∧
      (∀ r ∈ ([⟨lit "f.txt", lit "hello"⟩] : List FileRecord),
        '"' ∉ r.name ∧ ¬ ((lit "]]>") <:+: r.content))) ∧
      decodeRecords (generateXmlOutput [⟨lit "f.txt", lit "hello"⟩]) =
        Except.ok ([⟨lit "f.txt", lit "hello"⟩].map padRecord) :=
  ⟨⟨by decide, by decide⟩,
    decode_encode_padded [⟨lit "f.txt", lit "hello"⟩] (by decide) (by decide)⟩

/-! ## C10: unescaped names break decoding -/

/-- C10: `generateXmlOutput` interpolates the file name into the `name`
attribute with no escaping, so a name containing a double quote produces
envelope text that fails to parse during decode: the record list is not
recoverable. -/
theorem unescaped_name_decode_fails :
    decodeRecords (generateXmlOutput [⟨lit "a\"b", lit "x"⟩]) =
      Except.error DecodeError.parseError := rfl

end Files2Prompt
